import Mathlib

/-!
Verification of the Riddi text-to-speech pipeline.

Shallow embedding of the pieces of the repository that the claims are
about: the Unicode text normalizer and chunker (`src/lib/tts/index.ts`,
`UnicodeProcessor.preprocessText` and `chunkText`), the WAV exporter
(`writeWavFile`), the per-batch duration post-processing and the vocoder
timeout of `_infer`, the streaming entry point `synthesizeStreaming`, the
offscreen streaming coordinator (`synthesizeAndPlay`,
`getTargetBufferSize`), and the word-highlight timer
(`startWordAnimation`).

Strings are modelled as `List Char`; `slen` is the JavaScript `.length`
(UTF-16 code units).  Recursions that are not structural in the source
are given explicit fuel, always called with enough fuel (the length of
the scanned list), so that every definition evaluates by kernel
reduction.
-/

namespace Riddi

/-- The apostrophe character `'` (code point 39). -/
def apos : Char := Char.ofNat 39

/-- The double-quote character (code point 34). -/
def dquote : Char := Char.ofNat 34

/-- The backtick character (code point 96). -/
def btick : Char := Char.ofNat 96

/-- JavaScript whitespace (`\s` in regexes, and the set trimmed by
`String.prototype.trim`). -/
def isWsJS (c : Char) : Bool :=
  let n := c.toNat
  n = 9 || n = 10 || n = 11 || n = 12 || n = 13 || n = 32 ||
  n = 160 || n = 0x1680 || (0x2000 ≤ n && n ≤ 0x200A) ||
  n = 0x2028 || n = 0x2029 || n = 0x202F || n = 0x205F ||
  n = 0x3000 || n = 0xFEFF

/-- JavaScript word character (`\w` in regexes): ASCII letters, digits
and underscore. -/
def isWordChar (c : Char) : Bool :=
  (('a' ≤ c && c ≤ 'z') || ('A' ≤ c && c ≤ 'Z') || ('0' ≤ c && c ≤ '9') || c = '_')

/-- Number of UTF-16 code units a character occupies; JavaScript
`String.prototype.length` counts these. -/
def ulen (c : Char) : ℕ := if c.toNat < 0x10000 then 1 else 2

/-- JavaScript string length (UTF-16 code units). -/
def slen (l : List Char) : ℕ := (l.map ulen).sum

/-- `String.prototype.trim`: drop JavaScript whitespace at both ends. -/
def jsTrim (l : List Char) : List Char :=
  ((l.dropWhile isWsJS).reverse.dropWhile isWsJS).reverse

/-- Does `pat` occur at the very start of `l`? (Used to model
left-to-right regex/`replaceAll` scanning.) -/
def matchesAt : List Char → List Char → Bool
  | [], _ => true
  | _ :: _, [] => false
  | p :: ps, c :: cs => p = c && matchesAt ps cs

/-- One fuel-indexed step of JavaScript `String.prototype.replaceAll`
with a literal pattern: scan left to right, replace non-overlapping
occurrences, never rescan the replacement. -/
def replaceListF (pat rep : List Char) : ℕ → List Char → List Char
  | 0, l => l
  | _, [] => []
  | fuel + 1, c :: cs =>
    if matchesAt pat (c :: cs) then
      rep ++ replaceListF pat rep fuel ((c :: cs).drop pat.length)
    else
      c :: replaceListF pat rep fuel cs

/-- JavaScript `replaceAll` with a literal (non-empty) pattern. -/
def replaceAll (pat rep l : List Char) : List Char :=
  if pat = [] then l else replaceListF pat rep l.length l

/-- Fuel-indexed collapse of whitespace runs (`.replace(/\s+/g, ' ')`). -/
def collapseWsF : ℕ → List Char → List Char
  | 0, l => l
  | _, [] => []
  | fuel + 1, c :: cs =>
    if isWsJS c then ' ' :: collapseWsF fuel (cs.dropWhile isWsJS)
    else c :: collapseWsF fuel cs

/-- `.replace(/\s+/g, ' ')`: every run of whitespace becomes one space. -/
def collapseWs (l : List Char) : List Char := collapseWsF l.length l

/-! ### `UnicodeProcessor.preprocessText` -/

/-- The emoji ranges stripped by the first regex of `preprocessText`. -/
def isEmojiChar (c : Char) : Bool :=
  let n := c.toNat
  (0x1F600 ≤ n && n ≤ 0x1F64F) || (0x1F300 ≤ n && n ≤ 0x1F5FF) ||
  (0x1F680 ≤ n && n ≤ 0x1F6FF) || (0x1F700 ≤ n && n ≤ 0x1F77F) ||
  (0x1F780 ≤ n && n ≤ 0x1F7FF) || (0x1F800 ≤ n && n ≤ 0x1F8FF) ||
  (0x1F900 ≤ n && n ≤ 0x1F9FF) || (0x1FA00 ≤ n && n ≤ 0x1FA6F) ||
  (0x1FA70 ≤ n && n ≤ 0x1FAFF) || (0x2600 ≤ n && n ≤ 0x26FF) ||
  (0x2700 ≤ n && n ≤ 0x27BF) || (0x1F1E6 ≤ n && n ≤ 0x1F1FF)

/-- The combining marks stripped by `preprocessText`. -/
def isCombiningChar (c : Char) : Bool :=
  let n := c.toNat
  n = 0x0302 || n = 0x0303 || n = 0x0304 || n = 0x0305 || n = 0x0306 ||
  n = 0x0307 || n = 0x0308 || n = 0x030A || n = 0x030B || n = 0x030C ||
  n = 0x0327 || n = 0x0328 || n = 0x0329 || n = 0x032A || n = 0x032B ||
  n = 0x032C || n = 0x032D || n = 0x032E || n = 0x032F

/-- The symbols stripped by the `[♥☆♡©\\]` regex of `preprocessText`. -/
def isStrippedSymbol (c : Char) : Bool :=
  let n := c.toNat
  n = 0x2665 || n = 0x2606 || n = 0x2661 || n = 0x00A9 || n = 0x005C

/-- The single-character `replacements` table of `preprocessText`, in
object-literal order. -/
def charReplacements : List (List Char × List Char) :=
  [([Char.ofNat 0x2013], ['-']),
   ([Char.ofNat 0x2011], ['-']),
   ([Char.ofNat 0x2014], ['-']),
   ([Char.ofNat 0x00AF], [' ']),
   (['_'], [' ']),
   ([dquote], [dquote]),
   ([Char.ofNat 0x2018], [apos]),
   ([Char.ofNat 0x2019], [apos]),
   ([Char.ofNat 0x00B4], [apos]),
   ([btick], [apos]),
   (['['], [' ']),
   ([']'], [' ']),
   (['|'], [' ']),
   (['/'], [' ']),
   (['#'], [' ']),
   ([Char.ofNat 0x2192], [' ']),
   ([Char.ofNat 0x2190], [' '])]

/-- The `exprReplacements` table of `preprocessText`, in object-literal
order: `@` → ` at `, `e.g.,` → `for example, `, `i.e.,` → `that is, `. -/
def exprReplacements : List (List Char × List Char) :=
  [(['@'], [' ', 'a', 't', ' ']),
   (['e', '.', 'g', '.', ','],
    ['f', 'o', 'r', ' ', 'e', 'x', 'a', 'm', 'p', 'l', 'e', ',', ' ']),
   (['i', '.', 'e', '.', ','],
    ['t', 'h', 'a', 't', ' ', 'i', 's', ',', ' '])]

/-- Apply a table of `(pattern, replacement)` pairs with `replaceAll`,
one after the other (the `for (const [k, v] of Object.entries(...))`
loops of `preprocessText`). -/
def applyPairs (prs : List (List Char × List Char)) (l : List Char) : List Char :=
  prs.foldl (fun acc pr => replaceAll pr.1 pr.2 acc) l

/-- The space-before-punctuation fixes of `preprocessText`
(`/ ,/ → ,`, `/ \./ → .`, `/ !/ → !`, `/ \?/ → ?`, `/ ;/ → ;`,
`/ :/ → :`, `/ '/ → '`), in source order. -/
def spacePunctPairs : List (List Char × List Char) :=
  [(([' ', ',']), ([','])),
   (([' ', '.']), (['.'])),
   (([' ', '!']), (['!'])),
   (([' ', '?']), (['?'])),
   (([' ', ';']), ([';'])),
   (([' ', ':']), ([':'])),
   (([' ', apos]), ([apos]))]

/-- The doubled-quote collapses of `preprocessText` (`"" → "`,
`'' → '`, ```` `` ```` → `` ` ``), in source order. -/
def quotePairs : List (List Char × List Char) :=
  [(([dquote, dquote]), ([dquote])),
   (([apos, apos]), ([apos])),
   (([btick, btick]), ([btick]))]

/-- The terminal-punctuation character class of `preprocessText`
(`[.!?;:,'\"')\]}…。」』】〉》›»]`). -/
def isTerminalPunct (c : Char) : Bool :=
  let n := c.toNat
  n = 46 || n = 33 || n = 63 || n = 59 || n = 58 || n = 44 || n = 39 ||
  n = 34 || n = 41 || n = 93 || n = 125 || n = 0x2026 || n = 0x3002 ||
  n = 0x300D || n = 0x300F || n = 0x3011 || n = 0x3009 || n = 0x300B ||
  n = 0x203A || n = 0x00BB

/-- Does the normalized text already end in terminal punctuation
(the `/…$/.test(normalized)` check)?  An empty string does not. -/
def endsWithTerminalPunct (l : List Char) : Bool :=
  match l.getLast? with
  | some c => isTerminalPunct c
  | none => false

/-- `UnicodeProcessor.preprocessText`.  The call to
`String.prototype.normalize('NFKD')` is kept as a parameter `nfkd`
(the Unicode decomposition table is external to the repository); every
other stage is translated from the source, in source order. -/
def preprocessText (nfkd : List Char → List Char) (text : List Char) : List Char :=
  let n1 := nfkd text
  let n2 := n1.filter (fun c => !isEmojiChar c)
  let n3 := applyPairs charReplacements n2
  let n4 := n3.filter (fun c => !isCombiningChar c)
  let n5 := n4.filter (fun c => !isStrippedSymbol c)
  let n6 := applyPairs exprReplacements n5
  let n7 := applyPairs spacePunctPairs n6
  let n8 := applyPairs quotePairs n7
  let n9 := jsTrim (collapseWs n8)
  if endsWithTerminalPunct n9 then n9 else n9 ++ ['.']

/-! ### `chunkText` -/

/-- Index of the last newline inside a list, if any.  Used to model the
greedy match of `/\n\s*\n+/`: starting at a newline, the match extends
through the following whitespace run up to (and including) the last
newline in that run. -/
def lastNlIdx (run : List Char) : Option ℕ :=
  (run.reverse.findIdx? (fun c => c = '\n')).map (fun j => run.length - 1 - j)

/-- Fuel-indexed `String.prototype.split(/\n\s*\n+/)`: scan left to
right; at a `\n` whose following whitespace run contains another `\n`,
cut (consuming the separator up to that last newline), else keep
scanning.  `acc` holds the current part, reversed. -/
def paraSplitF : ℕ → List Char → List Char → List (List Char)
  | 0, l, acc => [acc.reverse ++ l]
  | _, [], acc => [acc.reverse]
  | fuel + 1, c :: cs, acc =>
    if c = '\n' then
      match lastNlIdx (cs.takeWhile isWsJS) with
      | some k => acc.reverse :: paraSplitF fuel (cs.drop (k + 1)) []
      | none => paraSplitF fuel cs (c :: acc)
    else paraSplitF fuel cs (c :: acc)

/-- `text.split(/\n\s*\n+/)` (blank-line paragraph boundaries). -/
def paraSplit (l : List Char) : List (List Char) := paraSplitF l.length l []

/-- The abbreviation alternatives of the sentence-split regex of
`chunkText`, reversed (they are checked against the reversed prefix of
the scan position, i.e. as an ends-with test). -/
def abbrevsRev : List (List Char) :=
  (["Mr.", "Mrs.", "Ms.", "Dr.", "Prof.", "Sr.", "Jr.", "Ph.D.", "etc.",
    "e.g.", "i.e.", "vs.", "Inc.", "Ltd.", "Co.", "Corp.", "St.", "Ave.",
    "Blvd."].map String.toList).map List.reverse

/-- `(?<!Mr\.|Mrs\.|…)`: does the text before the scan position
(given reversed) end with one of the guarded abbreviations? -/
def endsWithAbbrev (rev : List Char) : Bool :=
  abbrevsRev.any (fun a => matchesAt a rev)

/-- `(?<!\b[A-Z]\.)`: does the text before the scan position (given
reversed) end with a single capital-letter initial followed by a dot,
the capital sitting at a word boundary? -/
def endsWithInitial (rev : List Char) : Bool :=
  match rev with
  | d :: c :: rest =>
    d = '.' && ('A' ≤ c && c ≤ 'Z') &&
      (match rest with
       | [] => true
       | r :: _ => !isWordChar r)
  | _ => false

/-- `(?<=[.!?])`: sentence-terminal punctuation for the splitter. -/
def isSentencePunct (c : Char) : Bool := c = '.' || c = '!' || c = '?'

/-- Is the (reversed) text before the scan position a valid sentence
boundary: preceded by `[.!?]`, not by an abbreviation, not by a
single-letter initial? -/
def sentenceBoundary (rev : List Char) : Bool :=
  (match rev with
   | p :: _ => isSentencePunct p
   | [] => false) &&
  !endsWithAbbrev rev && !endsWithInitial rev

/-- Fuel-indexed split on the abbreviation-aware sentence regex
`/(?<!Mr\.|…)(?<!\b[A-Z]\.)(?<=[.!?])\s+/`: cut at a whitespace
character at a valid sentence boundary, consuming the whole whitespace
run; `acc` holds the current part, reversed. -/
def sentSplitF : ℕ → List Char → List Char → List (List Char)
  | 0, l, acc => [acc.reverse ++ l]
  | _, [], acc => [acc.reverse]
  | fuel + 1, c :: cs, acc =>
    if isWsJS c && sentenceBoundary acc then
      acc.reverse :: sentSplitF fuel (cs.dropWhile isWsJS) []
    else sentSplitF fuel cs (c :: acc)

/-- `paragraph.split(/(?<!Mr\.|…)(?<!\b[A-Z]\.)(?<=[.!?])\s+/)`. -/
def sentSplit (l : List Char) : List (List Char) := sentSplitF l.length l []

/-- The greedy sentence-packing loop of `chunkText`: `currentChunk`
accumulates sentences joined by a space while the joined length stays
within `maxLen`; otherwise the current chunk is flushed (trimmed) and
the sentence starts a new chunk. -/
def packLoop (maxLen : ℕ) : List (List Char) → List Char → List (List Char)
  | [], acc => if acc = [] then [] else [jsTrim acc]
  | s :: ss, acc =>
    if slen acc + slen s + 1 ≤ maxLen then
      packLoop maxLen ss (acc ++ (if acc = [] then [] else [' ']) ++ s)
    else
      (if acc = [] then [] else [jsTrim acc]) ++ packLoop maxLen ss s

/-- The per-paragraph contribution of `chunkText`: a trimmed paragraph
within the budget is one chunk verbatim; a longer paragraph is split
into sentences and greedily packed. -/
def paragraphChunks (maxLen : ℕ) (para : List Char) : List (List Char) :=
  let p := jsTrim para
  if p = [] then []
  else if slen p ≤ maxLen then [p]
  else packLoop maxLen (sentSplit p) []

/-- `chunkText(text, maxLen = 300)`. -/
def chunkText (text : List Char) (maxLen : ℕ := 300) : List (List Char) :=
  let paragraphs := (paraSplit (jsTrim text)).filter (fun p => jsTrim p ≠ [])
  paragraphs.foldl (fun chunks para => chunks ++ paragraphChunks maxLen para) []

/-! ### `writeWavFile` -/

/-- `DataView.setUint16(…, true)`: two little-endian bytes. -/
def u16le (n : ℕ) : List ℕ := [n % 256, n / 256 % 256]

/-- `DataView.setUint32(…, true)`: four little-endian bytes. -/
def u32le (n : ℕ) : List ℕ :=
  [n % 256, n / 256 % 256, n / 65536 % 256, n / 16777216 % 256]

/-- `Math.max` on rationals. -/
def jsMaxQ (a b : ℚ) : ℚ := if a ≤ b then b else a

/-- `Math.min` on rationals. -/
def jsMinQ (a b : ℚ) : ℚ := if a ≤ b then a else b

/-- `Math.max` on integers. -/
def jsMaxI (a b : ℤ) : ℤ := if a ≤ b then b else a

/-- `Math.floor` of a rational, as an integer (floor division of the
numerator by the denominator). -/
def ratFloor (q : ℚ) : ℤ := Int.fdiv q.num (q.den : ℤ)

/-- One sample of `writeWavFile`: clamp to `[-1, 1]`, scale by 32767,
`Math.floor`, then the two little-endian bytes of the 16-bit two's
complement representation (the `Int16Array` buffer viewed as bytes). -/
def i16leBytes (x : ℚ) : List ℕ :=
  let clamped := jsMaxQ (-1 : ℚ) (jsMinQ 1 x)
  let v : ℤ := ratFloor (clamped * 32767)
  u16le ((v % 65536).toNat)

/-- The 44 header bytes written by `writeWavFile` before the PCM data:
`RIFF`, riff size, `WAVE`, `fmt `, fmt-chunk size 16, audio format 1,
`numChannels = 1`, sample rate, byte rate, block align,
`bitsPerSample = 16`, `data`, data size — each multi-byte field
little-endian, exactly as the sequence of `setUint…(…, true)` calls. -/
def wavHeader (sampleRate dataSize : ℕ) : List ℕ :=
  let numChannels := 1
  let bitsPerSample := 16
  let byteRate := sampleRate * numChannels * bitsPerSample / 8
  let blockAlign := numChannels * bitsPerSample / 8
  [82, 73, 70, 70] ++ u32le (36 + dataSize) ++
  [87, 65, 86, 69] ++ [102, 109, 116, 32] ++
  u32le 16 ++ u16le 1 ++ u16le numChannels ++ u32le sampleRate ++
  u32le byteRate ++ u16le blockAlign ++ u16le bitsPerSample ++
  [100, 97, 116, 97] ++ u32le dataSize

/-- `writeWavFile(audioData, sampleRate)`: the 44-byte RIFF/WAVE header
followed by the 16-bit PCM data, as a byte list
(`dataSize = audioData.length * 2`). -/
def writeWavFile (audioData : List ℚ) (sampleRate : ℕ) : List ℕ :=
  wavHeader sampleRate (audioData.length * 2) ++
  (audioData.map i16leBytes).flatten

/-- Decode a little-endian 16-bit field of a byte list. -/
def readU16LE (bytes : List ℕ) (off : ℕ) : ℕ :=
  bytes.getD off 0 + 256 * bytes.getD (off + 1) 0

/-- Decode a little-endian 32-bit field of a byte list. -/
def readU32LE (bytes : List ℕ) (off : ℕ) : ℕ :=
  bytes.getD off 0 + 256 * bytes.getD (off + 1) 0 +
  65536 * bytes.getD (off + 2) 0 + 16777216 * bytes.getD (off + 3) 0

/-! ### `_infer`: duration post-processing and the vocoder timeout -/

/-- The `for (let i = 0; i < duration.length; i++) duration[i] /= speed`
loop of `_infer`, applied to the duration predictor's raw output. -/
def speedAdjust : List ℚ → ℚ → List ℚ
  | [], _ => []
  | d :: ds, speed => d / speed :: speedAdjust ds speed

/-- `VOCODER_TIMEOUT_MS = 120000` (2 minutes per chunk). -/
def VOCODER_TIMEOUT_MS : ℕ := 120000

/-- The message of the vocoder-timeout rejection. -/
def vocoderTimeoutMsg : List Char :=
  "Vocoder timed out after 120000ms".toList

/-- One `_infer` call on a batch of one chunk, with the two external
model outputs as oracles: `dpRaw` is the duration predictor's raw
output for the chunk, `vocMs` the wall-clock milliseconds the vocoder
takes.  `Promise.race` against the 120000 ms timer either yields the
waveform (duration `dpRaw / speed` is returned) or rejects with the
timeout error, which `_infer` re-throws. -/
def inferChunk (dpRaw : ℚ) (speed : ℚ) (vocMs : ℕ) : Except (List Char) ℚ :=
  if vocMs < VOCODER_TIMEOUT_MS then
    Except.ok ((speedAdjust [dpRaw] speed).headD 0)
  else
    Except.error vocoderTimeoutMsg

/-! ### `synthesizeStreaming` -/

/-- The error thrown by `synthesizeStreaming` when the voice style's
encoding tensor has batch dimension ≠ 1. -/
def singleStyleMsg : List Char :=
  "Single speaker text to speech only supports single style".toList

/-- The chunk loop of `synthesizeStreaming`: synthesize chunks in
order; each success calls `onChunkReady` (recorded as an
`(index, duration)` event); a chunk error is re-thrown, aborting the
loop.  Returns the events emitted so far together with the outcome
(total duration on success, the thrown message on failure). -/
def streamLoop (speed : ℚ) (dpRaw : ℕ → ℚ) (vocMs : ℕ → ℕ) :
    List (List Char) → ℕ → ℚ → List (ℕ × ℚ) →
    List (ℕ × ℚ) × Except (List Char) ℚ
  | [], _, totalDur, events => (events, Except.ok totalDur)
  | _ :: rest, i, totalDur, events =>
    match inferChunk (dpRaw i) speed (vocMs i) with
    | Except.error e => (events, Except.error e)
    | Except.ok d =>
      streamLoop speed dpRaw vocMs rest (i + 1) (totalDur + d) (events ++ [(i, d)])

/-- `synthesizeStreaming(text, style, …)`: reject any style whose
`ttl` tensor has batch dimension ≠ 1 before doing anything else,
otherwise chunk the text and run the streaming loop.  `styleTtlDims`
is `style.ttl.dims`; the inference sessions are abstracted by the
`dpRaw`/`vocMs` oracles of `inferChunk`. -/
def synthesizeStreamingModel (styleTtlDims : List ℕ) (text : List Char)
    (speed : ℚ) (dpRaw : ℕ → ℚ) (vocMs : ℕ → ℕ) :
    List (ℕ × ℚ) × Except (List Char) ℚ :=
  if styleTtlDims.getD 0 0 ≠ 1 then ([], Except.error singleStyleMsg)
  else streamLoop speed dpRaw vocMs (chunkText text 300) 0 0 []

/-! ### The offscreen streaming coordinator (`synthesizeAndPlay`) -/

/-- `SHORT_TEXT_THRESHOLD = 100` characters. -/
def SHORT_TEXT_THRESHOLD : ℕ := 100

/-- `LONG_TEXT_THRESHOLD = 200` characters. -/
def LONG_TEXT_THRESHOLD : ℕ := 200

/-- `SHORT_DURATION_THRESHOLD = 3` seconds. -/
def SHORT_DURATION_THRESHOLD : ℚ := 3

/-- `getTargetBufferSize()`: average duration of the currently buffered
chunks (0 when the buffer is empty), count of short chunks among the
next `i ∈ [nextToSynthesize, min(nextToSynthesize + 3, totalChunks))`
not-yet-synthesized chunks; target 4 when at least two are short or the
average is below 3 s, else 2.  `chunkLens` are the lengths of
`textChunks`. -/
def getTargetBufferSize (bufferDurs : List ℚ) (chunkLens : List ℕ)
    (nextToSynthesize totalChunks : ℕ) : ℕ :=
  let avgBufferedDuration : ℚ :=
    if 0 < bufferDurs.length then bufferDurs.sum / (bufferDurs.length : ℚ)
    else 0
  let shortChunksAhead :=
    ((List.range' nextToSynthesize
        (min (nextToSynthesize + 3) totalChunks - nextToSynthesize)).filter
      (fun i => chunkLens.getD i 0 < SHORT_TEXT_THRESHOLD)).length
  if 2 ≤ shortChunksAhead ∨ avgBufferedDuration < SHORT_DURATION_THRESHOLD then 4
  else 2

/-- `initialBufferSize`: 1 when the first chunk is long (fast start),
else 2. -/
def initialBufferCount (chunkLens : List ℕ) : ℕ :=
  if LONG_TEXT_THRESHOLD ≤ chunkLens.headD 0 then 1 else 2

/-- The playback loop of `synthesizeAndPlay`, for a request that runs
to completion.  Per iteration: shift the head of the buffer, emit its
`tts-chunk-playing` index, compute the target buffer depth, start
`max(0, target - buffer.length)` further synthesis tasks (capped by the
chunks remaining) concurrently with playback, and `Promise.all` them
before the next iteration — so the tasks started in an iteration all
land in the buffer before the next shift, in a completion order chosen
by the scheduler `sched` (a permutation of the started tasks per
iteration; the inference calls are independent promises, so the code
fixes no completion order).  The buffer holds `(index, duration)`
pairs; `dur` is the audio duration each chunk synthesizes to. -/
def coordLoop (lens : List ℕ) (dur : ℕ → ℚ)
    (sched : ℕ → List (ℕ × ℚ) → List (ℕ × ℚ)) :
    ℕ → ℕ → List (ℕ × ℚ) → ℕ → List ℕ → List ℕ
  | 0, _, _, _, events => events
  | _ + 1, _, [], _, events => events
  | fuel + 1, iter, chunk :: rest, nextSynth, events =>
    let target := getTargetBufferSize (rest.map Prod.snd) lens nextSynth lens.length
    let k := min (target - rest.length) (lens.length - nextSynth)
    let started := (List.range k).map (fun j => (nextSynth + j, dur (nextSynth + j)))
    coordLoop lens dur sched fuel (iter + 1) (rest ++ sched iter started)
      (nextSynth + k) (events ++ [chunk.1])

/-- `synthesizeAndPlay` for a request that is never cancelled: pre-fill
the buffer serially with `min(initialBufferSize, totalChunks)` chunks
(in index order), then run the playback loop; the result is the
sequence of chunk indices carried by the `tts-chunk-playing` events,
in emission order. -/
def synthesizeAndPlayEvents (lens : List ℕ) (dur : ℕ → ℚ)
    (sched : ℕ → List (ℕ × ℚ) → List (ℕ × ℚ)) : List ℕ :=
  let total := lens.length
  let m := min (initialBufferCount lens) total
  let initBuf := (List.range m).map (fun j => (j, dur j))
  coordLoop lens dur sched total 0 initBuf m []

/-! ### `startWordAnimation` -/

/-- JavaScript `Math.round`: round half toward positive infinity. -/
def jsRound (q : ℚ) : ℤ := ratFloor (q + 1 / 2)

/-- `/[.!?]$/.test(wordText.trim())`: does the trimmed word end in
sentence-terminal punctuation? -/
def isSentenceEndWord (w : List Char) : Bool :=
  match (jsTrim w).getLast? with
  | some c => isSentencePunct c
  | none => false

/-- The chain of `setTimeout` delays produced by `scheduleNextWord`,
one per remaining word: the per-word time, plus the sentence-end pause
after a word ending in `[.!?]`. -/
def scheduleDelays (msPerWord sentenceEndPause : ℤ) :
    List (List Char) → List ℤ
  | [] => []
  | w :: ws =>
    (if isSentenceEndWord w then msPerWord + sentenceEndPause else msPerWord) ::
    scheduleDelays msPerWord sentenceEndPause ws

/-- `startWordAnimation(durationMs, startIndex)`: with
`wordsToAnimate = words.length - startIndex` (nothing is scheduled when
it is 0), `msPerWord = Math.max(100, Math.round(durationMs /
wordsToAnimate))` and `sentenceEndPause = Math.round(msPerWord * 0.25)`,
the successive timer delays driving the highlight. -/
def startWordAnimationDelays (words : List (List Char)) (durationMs : ℚ)
    (startIndex : ℕ) : List ℤ :=
  let wordsToAnimate := words.length - startIndex
  if wordsToAnimate = 0 then []
  else
    let msPerWord := jsMaxI 100 (jsRound (durationMs / (wordsToAnimate : ℚ)))
    let sentenceEndPause := jsRound ((msPerWord : ℚ) * (1 / 4))
    scheduleDelays msPerWord sentenceEndPause (words.drop startIndex)

/-! ### Concrete scenarios used by counterexamples and witnesses -/

/-- A three-paragraph input whose chunking yields exactly three
chunks. -/
def threeParaText : List Char :=
  "First one.\n\nSecond one.\n\nThird one.".toList

/-- A vocoder-time oracle under which chunk 1 hits the 120 s timeout
and every other chunk vocodes quickly. -/
def slowSecondChunk : ℕ → ℕ := fun i => if i = 1 then 120000 else 10

/-- A completion-order scheduler under which the two synthesis tasks
started during playback of chunk 0 complete in reverse order (legal:
they are independent promises), and all later batches complete in
start order. -/
def swapFirstBatch : ℕ → List (ℕ × ℚ) → List (ℕ × ℚ) :=
  fun iter l => if iter = 0 then l.reverse else l

/-- The first-in-first-out completion order: every batch of
concurrently started synthesis tasks completes in start order. -/
def fifoSched : ℕ → List (ℕ × ℚ) → List (ℕ × ℚ) := fun _ l => l

/-! ### Character classes used to state the normalizer fixed-point
result -/

/-- ASCII letters, digits and the space character: text over this
alphabet is untouched by every rewriting stage of `preprocessText`
(and `NFKD` is the identity on it). -/
def isPlainChar (c : Char) : Bool :=
  c.toNat = 32 || (48 ≤ c.toNat && c.toNat ≤ 57) ||
  (65 ≤ c.toNat && c.toNat ≤ 90) || (97 ≤ c.toNat && c.toNat ≤ 122)

/-- `isPlainChar` together with the period, the alphabet of a
first-pass `preprocessText` output on plain input. -/
def isPlainOrDot (c : Char) : Bool := isPlainChar c || c.toNat = 46

/-- Whitespace-canonical text: every whitespace character is a plain
space and no two whitespace characters are adjacent.  This is the shape
`\s+ → ' '` produces, and exactly the shape it leaves unchanged. -/
def wsCanonical (l : List Char) : Prop :=
  (∀ c ∈ l, isWsJS c = true → c = ' ') ∧
  l.Chain' (fun a b => ¬(isWsJS a = true ∧ isWsJS b = true))

/-! ## Theorems -/

/-- Each encoded sample contributes exactly two bytes. -/
theorem length_i16leBytes (x : ℚ) : (i16leBytes x).length = 2 := by
  simp [i16leBytes, u16le]

/-- Summing the constant 2 over a list. -/
theorem sum_map_two {α : Type} (l : List α) :
    (l.map (fun _ => (2 : ℕ))).sum = 2 * l.length := by
  induction l with
  | nil => simp
  | cons a t ih => simp [ih]; omega

/-- The header is always 44 bytes. -/
theorem length_wavHeader (sampleRate dataSize : ℕ) :
    (wavHeader sampleRate dataSize).length = 44 := by
  simp [wavHeader, u32le, u16le]

/-- A WAV file is the 44-byte header plus two bytes per sample. -/
theorem length_writeWavFile (audioData : List ℚ) (sampleRate : ℕ) :
    (writeWavFile audioData sampleRate).length = 44 + 2 * audioData.length := by
  have hmap : (audioData.map i16leBytes).map List.length
      = audioData.map (fun _ => (2 : ℕ)) := by
    rw [List.map_map]
    exact List.map_congr_left (fun x _ => length_i16leBytes x)
  simp [writeWavFile, length_wavHeader, List.length_flatten, hmap, sum_map_two]
  omega

/-- A 32-bit field lying inside the left part of an append decodes
from the left part. -/
theorem readU32LE_append (l l' : List ℕ) (n : ℕ) (h : n + 3 < l.length) :
    readU32LE (l ++ l') n = readU32LE l n := by
  unfold readU32LE
  rw [List.getD_append _ _ _ _ (by omega), List.getD_append _ _ _ _ (by omega),
    List.getD_append _ _ _ _ (by omega), List.getD_append _ _ _ _ (by omega)]

/-- A 16-bit field lying inside the left part of an append decodes
from the left part. -/
theorem readU16LE_append (l l' : List ℕ) (n : ℕ) (h : n + 1 < l.length) :
    readU16LE (l ++ l') n = readU16LE l n := by
  unfold readU16LE
  rw [List.getD_append _ _ _ _ (by omega), List.getD_append _ _ _ _ (by omega)]

/-- C9: Encoding a 16000-sample waveform at sample rate 16000 with the
WAV exporter produces a RIFF container of 44 header bytes plus 32000
data bytes whose decoded header fields are `dataSize = 32000` (offset
40), `byteRate = 32000` (offset 28), `numChannels = 1` (offset 22) and
`bitsPerSample = 16` (offset 34). -/
theorem wav_header_fields :
    readU32LE (writeWavFile (List.replicate 16000 0) 16000) 40 = 32000 ∧
    readU32LE (writeWavFile (List.replicate 16000 0) 16000) 28 = 32000 ∧
    readU16LE (writeWavFile (List.replicate 16000 0) 16000) 22 = 1 ∧
    readU16LE (writeWavFile (List.replicate 16000 0) 16000) 34 = 16 ∧
    (writeWavFile (List.replicate 16000 0) 16000).length = 44 + 32000 ∧
    (writeWavFile (List.replicate 16000 0) 16000).take 4 = [82, 73, 70, 70] := by
  have hdata : (List.replicate 16000 (0 : ℚ)).length * 2 = 32000 := by
    rw [List.length_replicate]
  have hw : writeWavFile (List.replicate 16000 0) 16000
      = wavHeader 16000 32000 ++ ((List.replicate 16000 (0 : ℚ)).map i16leBytes).flatten := by
    unfold writeWavFile
    rw [hdata]
  rw [hw]
  have hlen := length_wavHeader 16000 32000
  refine ⟨?_, ?_, ?_, ?_, ?_, ?_⟩
  · rw [readU32LE_append _ _ _ (by omega)]
    decide
  · rw [readU32LE_append _ _ _ (by omega)]
    decide
  · rw [readU16LE_append _ _ _ (by omega)]
    decide
  · rw [readU16LE_append _ _ _ (by omega)]
    decide
  · rw [← hw, length_writeWavFile, List.length_replicate]
  · rw [List.take_append_of_le_length (by omega)]
    decide

/-- C10: `synthesizeStreaming` throws (and emits no chunk) whenever the
supplied voice style's encoding tensor has batch dimension different
from 1; nothing is synthesized in that case. -/
theorem streaming_rejects_multi_style (dims : List ℕ) (text : List Char)
    (speed : ℚ) (dpRaw : ℕ → ℚ) (vocMs : ℕ → ℕ)
    (h : dims.getD 0 0 ≠ 1) :
    synthesizeStreamingModel dims text speed dpRaw vocMs
      = ([], Except.error singleStyleMsg) := by
  unfold synthesizeStreamingModel
  rw [if_pos h]

/-- Witness for C10: a style batching two voices is rejected before any
synthesis. -/
theorem streaming_rejects_multi_style_witness :
    ([2, 128, 1] : List ℕ).getD 0 0 ≠ 1 ∧
    synthesizeStreamingModel [2, 128, 1] threeParaText 1 (fun _ => 2)
        (fun _ => 10) = ([], Except.error singleStyleMsg) :=
  ⟨by decide,
   streaming_rejects_multi_style [2, 128, 1] threeParaText 1 (fun _ => 2)
     (fun _ => 10) (by decide)⟩

/-- C7: the duration returned by the inference pipeline for every item
of a batch is the duration predictor's raw output divided by the speed
factor, so a speed greater than 1 strictly shortens a positive
predicted duration. -/
theorem duration_speed_division (raw : List ℚ) (speed : ℚ) (i : ℕ)
    (h : i < raw.length) :
    (speedAdjust raw speed).getD i 0 = raw.getD i 0 / speed ∧
    (1 < speed → 0 < raw.getD i 0 →
      (speedAdjust raw speed).getD i 0 < raw.getD i 0) := by
  induction raw generalizing i with
  | nil => simp at h
  | cons d ds ih =>
    match i with
    | 0 =>
      refine ⟨rfl, fun hs hd => ?_⟩
      simpa [speedAdjust] using div_lt_self (by simpa using hd) hs
    | i + 1 =>
      have h' : i < ds.length := by simpa using h
      simpa [speedAdjust] using ih i h'

/-- Witness for C7: a raw duration of 6 seconds at speed 2 becomes 3
seconds. -/
theorem duration_speed_division_witness :
    (0 : ℕ) < ([6] : List ℚ).length ∧
    ((speedAdjust [6] 2).getD 0 0 = ([6] : List ℚ).getD 0 0 / 2 ∧
     (1 < (2 : ℚ) → 0 < ([6] : List ℚ).getD 0 0 →
       (speedAdjust [6] 2).getD 0 0 < ([6] : List ℚ).getD 0 0)) :=
  ⟨by decide, duration_speed_division [6] 2 0 (by decide)⟩

/-- The timer chain assigns each remaining word its per-word time plus
the sentence-end pause when the word ends a sentence. -/
theorem scheduleDelays_eq_map (msPerWord sentenceEndPause : ℤ)
    (ws : List (List Char)) :
    scheduleDelays msPerWord sentenceEndPause ws
      = ws.map (fun w =>
          msPerWord + if isSentenceEndWord w then sentenceEndPause else 0) := by
  induction ws with
  | nil => rfl
  | cons w t ih =>
    by_cases h : isSentenceEndWord w <;> simp [scheduleDelays, h, ih]

/-- C8: the word-highlight driver advances on a fixed per-word timer of
`max(100, round(durationMs / wordsRemaining))` milliseconds, where
`wordsRemaining` counts the words from the computed start index, and
schedules an extra pause of 25 % of the per-word time after a word
ending in sentence-terminal punctuation. -/
theorem word_timer_schedule (words : List (List Char)) (durationMs : ℚ)
    (startIndex : ℕ) (h : startIndex < words.length) :
    startWordAnimationDelays words durationMs startIndex
      = (words.drop startIndex).map (fun w =>
          jsMaxI 100 (jsRound (durationMs / ((words.length - startIndex : ℕ) : ℚ))) +
          if isSentenceEndWord w then
            jsRound ((jsMaxI 100
              (jsRound (durationMs / ((words.length - startIndex : ℕ) : ℚ))) : ℚ) / 4)
          else 0) := by
  simp only [startWordAnimationDelays]
  rw [if_neg (Nat.sub_ne_zero_of_lt h), scheduleDelays_eq_map]
  refine List.map_congr_left (fun w _ => ?_)
  rw [mul_one_div]

/-- Witness for C8: one remaining word, 500 ms of audio: the timer is
500 ms plus a 125 ms pause for the sentence-ending word. -/
theorem word_timer_schedule_witness :
    (0 : ℕ) < ([['H', 'i', '.']] : List (List Char)).length ∧
    startWordAnimationDelays [['H', 'i', '.']] 500 0
      = (([['H', 'i', '.']] : List (List Char)).drop 0).map (fun w =>
          jsMaxI 100 (jsRound ((500 : ℚ) /
            ((([['H', 'i', '.']] : List (List Char)).length - 0 : ℕ) : ℚ))) +
          if isSentenceEndWord w then
            jsRound ((jsMaxI 100 (jsRound ((500 : ℚ) /
              ((([['H', 'i', '.']] : List (List Char)).length - 0 : ℕ) : ℚ))) : ℚ) / 4)
          else 0) :=
  ⟨by decide, word_timer_schedule [['H', 'i', '.']] 500 0 (by decide)⟩

/-- The coordinator's short-chunks-ahead loop over the index range
`[next, min(next + k, length))` inspects exactly the next `k`
not-yet-synthesized chunks. -/
theorem range'_map_getD (lens : List ℕ) :
    ∀ k next : ℕ,
      (List.range' next (min (next + k) lens.length - next)).map
          (fun i => lens.getD i 0)
        = (lens.drop next).take k := by
  intro k
  induction k with
  | zero =>
    intro next
    have h0 : min (next + 0) lens.length - next = 0 := by omega
    simp [h0]
  | succ k ih =>
    intro next
    by_cases h : next < lens.length
    · have hm : min (next + (k + 1)) lens.length - next
          = (min ((next + 1) + k) lens.length - (next + 1)) + 1 := by omega
      rw [hm, List.range'_succ, List.map_cons, ih (next + 1),
        List.drop_eq_getElem_cons h, List.take_succ_cons]
      congr 1
      exact List.getD_eq_getElem lens 0 h
    · have h0 : min (next + (k + 1)) lens.length - next = 0 := by omega
      have hd : lens.drop next = [] := List.drop_eq_nil_of_le (by omega)
      simp [h0, hd]

/-- C5: the adaptive target buffer depth is 4 exactly when at least 2
of the next 3 not-yet-synthesized chunks are shorter than 100
characters or the average duration of the buffered chunks is below 3
seconds (0 when the buffer is empty), and 2 otherwise — in particular
2 for buffered chunks averaging above 3 s with no 2-of-3 short chunks
ahead. -/
theorem target_buffer_depth_policy (bufferDurs : List ℚ) (chunkLens : List ℕ)
    (next : ℕ) :
    getTargetBufferSize bufferDurs chunkLens next chunkLens.length
      = if 2 ≤ (((chunkLens.drop next).take 3).filter
              (fun n => n < SHORT_TEXT_THRESHOLD)).length ∨
            (if 0 < bufferDurs.length then
              bufferDurs.sum / (bufferDurs.length : ℚ) else 0)
              < SHORT_DURATION_THRESHOLD
        then 4 else 2 := by
  have hcount :
      ((List.range' next (min (next + 3) chunkLens.length - next)).filter
          (fun i => chunkLens.getD i 0 < SHORT_TEXT_THRESHOLD)).length
        = (((chunkLens.drop next).take 3).filter
            (fun n => n < SHORT_TEXT_THRESHOLD)).length := by
    rw [← List.countP_eq_length_filter, ← List.countP_eq_length_filter,
      ← range'_map_getD chunkLens 3 next, List.countP_map]
    rfl
  simp only [getTargetBufferSize]
  rw [hcount]

/-- The sentence splitter always returns at least one part. -/
theorem sentSplitF_ne_nil : ∀ (fuel : ℕ) (l acc : List Char),
    sentSplitF fuel l acc ≠ [] := by
  intro fuel
  induction fuel with
  | zero => intro l acc; simp [sentSplitF]
  | succ n ih =>
    intro l acc
    cases l with
    | nil => simp [sentSplitF]
    | cons c cs =>
      simp only [sentSplitF]
      by_cases h : (isWsJS c && sentenceBoundary acc) = true
      · rw [if_pos h]
        simp
      · rw [if_neg h]
        exact ih cs (c :: acc)

/-- Every part of a sentence split other than the last one ends at a
position the boundary guard accepted. -/
theorem sentSplitF_dropLast_guard : ∀ (fuel : ℕ) (l acc : List Char),
    ∀ p ∈ (sentSplitF fuel l acc).dropLast, sentenceBoundary p.reverse = true := by
  intro fuel
  induction fuel with
  | zero => intro l acc p hp; simp [sentSplitF] at hp
  | succ n ih =>
    intro l acc p hp
    cases l with
    | nil => simp [sentSplitF] at hp
    | cons c cs =>
      simp only [sentSplitF] at hp
      by_cases h : (isWsJS c && sentenceBoundary acc) = true
      · rw [if_pos h,
          List.dropLast_cons_of_ne_nil (sentSplitF_ne_nil n (cs.dropWhile isWsJS) [])] at hp
        rcases List.mem_cons.mp hp with rfl | hp
        · rw [List.reverse_reverse]
          simp only [Bool.and_eq_true] at h
          exact h.2
        · exact ih _ _ p hp
      · rw [if_neg h] at hp
        exact ih _ _ p hp

/-- C6: the abbreviation-aware sentence splitter never cuts at a
position preceded by a guarded abbreviation or by a single-letter
initial, and on "Dr. Smith went home. He left." it does not split
after "Dr." — it splits exactly after "home." and "left.". -/
theorem sentence_split_abbrev_guard :
    (∀ (l : List Char), ∀ p ∈ (sentSplit l).dropLast,
        endsWithAbbrev p.reverse = false ∧ endsWithInitial p.reverse = false) ∧
    sentSplit ("Dr. Smith went home. He left.".toList)
      = ["Dr. Smith went home.".toList, "He left.".toList] := by
  constructor
  · intro l p hp
    have hb := sentSplitF_dropLast_guard l.length l [] p hp
    unfold sentenceBoundary at hb
    simp only [Bool.and_eq_true, Bool.not_eq_true'] at hb
    exact ⟨hb.1.2, hb.2⟩
  · decide

/-- Witness for C6: the first split part "Dr. Smith went home." ends at
a position where neither guard fired (in particular not after "Dr."). -/
theorem sentence_split_abbrev_guard_witness :
    endsWithAbbrev ("Dr. Smith went home.".toList).reverse = false ∧
    endsWithInitial ("Dr. Smith went home.".toList).reverse = false :=
  sentence_split_abbrev_guard.1 ("Dr. Smith went home. He left.".toList)
    ("Dr. Smith went home.".toList) (by decide)

/-- The streaming loop synthesizes and emits chunks `i, i+1, …` in
order until the first chunk whose vocoder call hits the 120 s timeout,
then re-throws: the events stop there and the whole call errors. -/
theorem streamLoop_stops_at_timeout (speed : ℚ) (dpRaw : ℕ → ℚ)
    (vocMs : ℕ → ℕ) (f : ℕ) (hfail : VOCODER_TIMEOUT_MS ≤ vocMs f) :
    ∀ (chunks : List (List Char)) (i : ℕ) (totalDur : ℚ)
      (events : List (ℕ × ℚ)),
      i ≤ f → f - i < chunks.length →
      (∀ j, i ≤ j → j < f → vocMs j < VOCODER_TIMEOUT_MS) →
      streamLoop speed dpRaw vocMs chunks i totalDur events
        = (events ++ (List.range' i (f - i)).map (fun j => (j, dpRaw j / speed)),
           Except.error vocoderTimeoutMsg) := by
  intro chunks
  induction chunks with
  | nil =>
    intro i totalDur events h1 h2 h3
    simp at h2
  | cons c rest ih =>
    intro i totalDur events h1 h2 h3
    rcases Nat.lt_or_ge i f with hlt | hge
    · have hvoc : vocMs i < VOCODER_TIMEOUT_MS := h3 i le_rfl hlt
      have hok : inferChunk (dpRaw i) speed (vocMs i)
          = Except.ok (dpRaw i / speed) := by
        unfold inferChunk
        rw [if_pos hvoc]
        simp [speedAdjust]
      simp only [streamLoop, hok]
      rw [ih (i + 1) (totalDur + dpRaw i / speed) (events ++ [(i, dpRaw i / speed)])
        (by omega) (by simp at h2 ⊢; omega) (fun j hj1 hj2 => h3 j (by omega) hj2)]
      have hr : f - i = (f - (i + 1)) + 1 := by omega
      rw [hr, List.range'_succ, List.map_cons, List.append_assoc,
        List.singleton_append]
    · have hif : i = f := le_antisymm h1 hge
      subst hif
      have herr : inferChunk (dpRaw i) speed (vocMs i)
          = Except.error vocoderTimeoutMsg := by
        unfold inferChunk
        rw [if_neg (by omega)]
      simp only [streamLoop, herr]
      simp

/-- C2 (amended): a vocoder timeout while synthesizing chunk `f` of a
request is fatal to the whole request — `synthesizeStreaming` re-throws
the chunk error, so the call errors out having emitted exactly chunks
`0, …, f-1`; no later chunk is synthesized. -/
theorem vocoder_timeout_aborts_request (dims : List ℕ) (text : List Char)
    (speed : ℚ) (dpRaw : ℕ → ℚ) (vocMs : ℕ → ℕ) (f : ℕ)
    (hdim : dims.getD 0 0 = 1)
    (hf : f < (chunkText text 300).length)
    (hfail : VOCODER_TIMEOUT_MS ≤ vocMs f)
    (hok : ∀ j, j < f → vocMs j < VOCODER_TIMEOUT_MS) :
    synthesizeStreamingModel dims text speed dpRaw vocMs
      = ((List.range f).map (fun j => (j, dpRaw j / speed)),
         Except.error vocoderTimeoutMsg) := by
  unfold synthesizeStreamingModel
  rw [if_neg (not_not_intro hdim)]
  rw [streamLoop_stops_at_timeout speed dpRaw vocMs f hfail
    (chunkText text 300) 0 0 [] (Nat.zero_le f) (by simpa using hf)
    (fun j _ hj => hok j hj)]
  simp [List.range_eq_range']

/-- Counterexample for C2: on a three-chunk request whose second chunk
times out in the vocoder (and whose third chunk would vocode quickly),
the whole request errors after emitting only chunk 0 — synthesis of the
remaining chunks does not continue. -/
theorem vocoder_timeout_aborts_request_cx :
    (chunkText threeParaText 300).length = 3 ∧
    slowSecondChunk 2 < VOCODER_TIMEOUT_MS ∧
    (synthesizeStreamingModel [1] threeParaText 1 (fun _ => 2)
        slowSecondChunk).2 = Except.error vocoderTimeoutMsg ∧
    ((synthesizeStreamingModel [1] threeParaText 1 (fun _ => 2)
        slowSecondChunk).1).map Prod.fst = [0] :=
  ⟨by decide, by decide, by with_unfolding_all rfl, by with_unfolding_all rfl⟩

/-- Witness for C2: the amended statement applied to the concrete
three-chunk request failing at chunk 1. -/
theorem vocoder_timeout_aborts_request_witness :
    (([1] : List ℕ).getD 0 0 = 1 ∧ 1 < (chunkText threeParaText 300).length ∧
     VOCODER_TIMEOUT_MS ≤ slowSecondChunk 1 ∧
     (∀ j, j < 1 → slowSecondChunk j < VOCODER_TIMEOUT_MS)) ∧
    synthesizeStreamingModel [1] threeParaText 1 (fun _ => 2) slowSecondChunk
      = ((List.range 1).map (fun j => (j, (2 : ℚ) / 1)),
         Except.error vocoderTimeoutMsg) :=
  ⟨⟨by decide, by decide, by decide, by decide⟩,
   vocoder_timeout_aborts_request [1] threeParaText 1 (fun _ => 2)
     slowSecondChunk 1 (by decide) (by decide) (by decide) (by decide)⟩

/-- The dynamic target buffer depth is always at least 2. -/
theorem getTargetBufferSize_ge_two (bufferDurs : List ℚ) (chunkLens : List ℕ)
    (nextToSynthesize totalChunks : ℕ) :
    2 ≤ getTargetBufferSize bufferDurs chunkLens nextToSynthesize totalChunks := by
  unfold getTargetBufferSize
  dsimp only
  split <;> (split <;> omega)

/-- Appending a batch of newly synthesized chunks `nS, …, nS + k - 1`
to a buffer holding `p, …, nS - 1` yields the buffer holding
`p, …, nS + k - 1`. -/
theorem buffer_refill_eq (dur : ℕ → ℚ) (p nS k : ℕ) (h : p ≤ nS) :
    (List.range' p (nS - p)).map (fun j => (j, dur j)) ++
      (List.range k).map (fun j => (nS + j, dur (nS + j)))
    = (List.range' p ((nS + k) - p)).map (fun j => (j, dur j)) := by
  obtain ⟨m, rfl⟩ : ∃ m, nS = p + m := ⟨nS - p, by omega⟩
  have h1 : (List.range k).map (fun j => ((p + m) + j, dur ((p + m) + j)))
      = (List.range' (p + m) k).map (fun j => (j, dur j)) := by
    rw [List.range'_eq_map_range, List.map_map]
    rfl
  have h2 : p + m - p = m := by omega
  have h3 : (p + m + k) - p = k + m := by omega
  rw [h1, h2, h3, ← List.map_append, List.range'_append_1]

/-- With first-in-first-out completion of each iteration's synthesis
batch, the playback loop starting from an in-order buffer
`p, …, nS - 1` emits exactly the indices `p, …, totalChunks - 1` in
increasing order. -/
theorem coordLoop_fifo_aux (lens : List ℕ) (dur : ℕ → ℚ) :
    ∀ (fuel iter p nS : ℕ) (events : List ℕ),
      p ≤ nS → nS ≤ lens.length → (p < lens.length → p < nS) →
      fuel = lens.length - p →
      coordLoop lens dur fifoSched fuel iter
          ((List.range' p (nS - p)).map (fun j => (j, dur j))) nS events
        = events ++ List.range' p (lens.length - p) := by
  intro fuel
  induction fuel with
  | zero =>
    intro iter p nS events h1 h2 h3 hf
    have h0 : lens.length - p = 0 := by omega
    rw [h0]
    simp [coordLoop]
  | succ n ih =>
    intro iter p nS events h1 h2 h3 hf
    have hp : p < lens.length := by omega
    have hpn : p < nS := h3 hp
    have hbuf : (List.range' p (nS - p)).map (fun j => (j, dur j))
        = (p, dur p) ::
          (List.range' (p + 1) (nS - (p + 1))).map (fun j => (j, dur j)) := by
      have hns : nS - p = (nS - (p + 1)) + 1 := by omega
      rw [hns, List.range'_succ, List.map_cons]
    rw [hbuf]
    simp only [coordLoop, fifoSched]
    generalize htgt : getTargetBufferSize
        (List.map Prod.snd (List.map (fun j => (j, dur j))
          (List.range' (p + 1) (nS - (p + 1))))) lens nS lens.length = tgt
    have htgt2 : 2 ≤ tgt := htgt ▸ getTargetBufferSize_ge_two _ _ _ _
    rw [List.length_map, List.length_range']
    rw [buffer_refill_eq dur (p + 1) nS
      (min (tgt - (nS - (p + 1))) (lens.length - nS)) (by omega)]
    have hk1 : min (tgt - (nS - (p + 1))) (lens.length - nS) ≤ lens.length - nS :=
      Nat.min_le_right _ _
    have hk2 : p + 1 < lens.length →
        p + 1 < nS + min (tgt - (nS - (p + 1))) (lens.length - nS) := by
      intro hpl
      rcases Nat.lt_or_ge (p + 1) nS with hlt | hge
      · omega
      · have : 1 ≤ min (tgt - (nS - (p + 1))) (lens.length - nS) :=
          le_min (by omega) (by omega)
        omega
    rw [ih (iter + 1) (p + 1)
      (nS + min (tgt - (nS - (p + 1))) (lens.length - nS))
      (events ++ [p]) (by omega) (by omega) hk2 (by omega)]
    have hr : lens.length - p = (lens.length - (p + 1)) + 1 := by omega
    rw [hr, List.range'_succ, List.append_assoc, List.singleton_append]

/-- C1 (amended): for a request with `N` chunks that runs to
completion, provided each iteration's concurrently-started synthesis
tasks land in the buffer in the order they were started, the
`tts-chunk-playing` events carry exactly the indices `0, 1, …, N-1`,
in strictly increasing order with no gaps and no repeats. -/
theorem chunk_playing_events_fifo (lens : List ℕ) (dur : ℕ → ℚ) :
    synthesizeAndPlayEvents lens dur fifoSched = List.range lens.length := by
  unfold synthesizeAndPlayEvents
  dsimp only
  have hm1 : min (initialBufferCount lens) lens.length ≤ lens.length :=
    Nat.min_le_right _ _
  have hic : 1 ≤ initialBufferCount lens := by
    unfold initialBufferCount
    split <;> omega
  have hinit : (List.range (min (initialBufferCount lens) lens.length)).map
        (fun j => (j, dur j))
      = (List.range' 0 (min (initialBufferCount lens) lens.length - 0)).map
          (fun j => (j, dur j)) := by
    rw [Nat.sub_zero, List.range_eq_range']
  rw [hinit, coordLoop_fifo_aux lens dur lens.length 0 0
    (min (initialBufferCount lens) lens.length) [] (Nat.zero_le _) hm1
    (fun h0 => lt_min (by omega) h0) rfl]
  rw [Nat.sub_zero, List.nil_append, List.range_eq_range']

/-- Counterexample for C1: a completed four-chunk request in which the
two synthesis tasks started during playback of chunk 0 complete in
reverse order (they are independent promises, so no completion order is
enforced) emits its `tts-chunk-playing` events with indices
`0, 1, 3, 2` — not in increasing order. -/
theorem chunk_playing_events_reordered_cx :
    ([50, 50, 50, 50] : List ℕ).length = 4 ∧
    synthesizeAndPlayEvents [50, 50, 50, 50] (fun _ => 5) swapFirstBatch
      = [0, 1, 3, 2] ∧
    synthesizeAndPlayEvents [50, 50, 50, 50] (fun _ => 5) swapFirstBatch
      ≠ List.range 4 :=
  ⟨by decide, by decide, by decide⟩

/-- UTF-16 length is additive. -/
theorem slen_append (a b : List Char) : slen (a ++ b) = slen a + slen b := by
  simp [slen]

/-- Dropping a matching head run never lengthens a string. -/
theorem slen_dropWhile_le (p : Char → Bool) (l : List Char) :
    slen (l.dropWhile p) ≤ slen l := by
  induction l with
  | nil => simp
  | cons c cs ih =>
    by_cases h : p c
    · rw [List.dropWhile_cons_of_pos h]
      have h2 : slen cs ≤ slen (c :: cs) := by simp [slen]
      omega
    · rw [List.dropWhile_cons_of_neg h]

/-- Reversal preserves UTF-16 length. -/
theorem slen_reverse (l : List Char) : slen l.reverse = slen l := by
  simp [slen, List.sum_reverse]

/-- Trimming never lengthens a string. -/
theorem slen_jsTrim_le (l : List Char) : slen (jsTrim l) ≤ slen l := by
  unfold jsTrim
  calc slen ((l.dropWhile isWsJS).reverse.dropWhile isWsJS).reverse
      = slen ((l.dropWhile isWsJS).reverse.dropWhile isWsJS) := slen_reverse _
    _ ≤ slen (l.dropWhile isWsJS).reverse := slen_dropWhile_le _ _
    _ = slen (l.dropWhile isWsJS) := slen_reverse _
    _ ≤ slen l := slen_dropWhile_le _ _

/-- A fold that only ever appends is the flattening of the per-element
contributions. -/
theorem foldl_append_eq {α β : Type} (g : α → List β) :
    ∀ (ps : List α) (init : List β),
      ps.foldl (fun acc p => acc ++ g p) init = init ++ (ps.map g).flatten := by
  intro ps
  induction ps with
  | nil => intro init; simp
  | cons p t ih =>
    intro init
    rw [List.foldl_cons, ih]
    simp [List.append_assoc]

/-- Every chunk comes from some paragraph of the input. -/
theorem mem_chunkText_cases (text c : List Char) (maxLen : ℕ)
    (hc : c ∈ chunkText text maxLen) :
    ∃ p ∈ paraSplit (jsTrim text), c ∈ paragraphChunks maxLen p := by
  unfold chunkText at hc
  rw [foldl_append_eq, List.nil_append] at hc
  rcases List.mem_flatten.mp hc with ⟨l, hl, hcl⟩
  rcases List.mem_map.mp hl with ⟨p, hp, rfl⟩
  exact ⟨p, (List.mem_filter.mp hp).1, hcl⟩

/-- Every chunk produced by the greedy packer either fits the budget or
is the trim of a single input sentence. -/
theorem packLoop_chunk_cases (maxLen : ℕ) (S : List (List Char)) :
    ∀ (sents : List (List Char)) (acc c : List Char),
      (∀ x ∈ sents, x ∈ S) → (slen acc ≤ maxLen ∨ acc ∈ S) →
      c ∈ packLoop maxLen sents acc →
      slen c ≤ maxLen ∨ ∃ s ∈ S, c = jsTrim s := by
  intro sents
  induction sents with
  | nil =>
    intro acc c hs hacc hc
    simp only [packLoop] at hc
    by_cases ha : acc = []
    · rw [if_pos ha] at hc
      simp at hc
    · rw [if_neg ha] at hc
      rw [List.mem_singleton.mp hc]
      rcases hacc with h | h
      · exact Or.inl (le_trans (slen_jsTrim_le acc) h)
      · exact Or.inr ⟨acc, h, rfl⟩
  | cons s ss ih =>
    intro acc c hs hacc hc
    simp only [packLoop] at hc
    by_cases hcond : slen acc + slen s + 1 ≤ maxLen
    · rw [if_pos hcond] at hc
      refine ih _ c (fun x hx => hs x (List.mem_cons_of_mem _ hx)) ?_ hc
      by_cases ha : acc = []
      · subst ha
        simp only [if_pos rfl, List.nil_append]
        exact Or.inr (hs s (List.mem_cons_self _ _))
      · rw [if_neg ha]
        refine Or.inl ?_
        rw [slen_append, slen_append]
        have h1 : slen [' '] = 1 := by decide
        omega
    · rw [if_neg hcond] at hc
      rcases List.mem_append.mp hc with h | h
      · by_cases ha : acc = []
        · rw [if_pos ha] at h
          simp at h
        · rw [if_neg ha] at h
          rw [List.mem_singleton.mp h]
          rcases hacc with h2 | h2
          · exact Or.inl (le_trans (slen_jsTrim_le acc) h2)
          · exact Or.inr ⟨acc, h2, rfl⟩
      · exact ih s c (fun x hx => hs x (List.mem_cons_of_mem _ hx))
          (Or.inr (hs s (List.mem_cons_self _ _))) h

/-- C4: with the default 300-code-unit budget, every chunk produced by
`chunkText` is at most 300 code units long, except that a chunk may be
a single sentence of an over-budget paragraph that itself exceeds the
budget — such a sentence is kept intact (the chunk is exactly the
trimmed sentence, never a mid-sentence fragment). -/
theorem chunk_length_budget (text c : List Char)
    (hc : c ∈ chunkText text 300) :
    slen c ≤ 300 ∨
      ∃ p ∈ paraSplit (jsTrim text), 300 < slen (jsTrim p) ∧
        ∃ s ∈ sentSplit (jsTrim p), c = jsTrim s ∧ 300 < slen s := by
  rcases mem_chunkText_cases text c 300 hc with ⟨p, hp, hcp⟩
  unfold paragraphChunks at hcp
  by_cases h0 : jsTrim p = []
  · rw [if_pos h0] at hcp
    simp at hcp
  · rw [if_neg h0] at hcp
    by_cases h1 : slen (jsTrim p) ≤ 300
    · rw [if_pos h1] at hcp
      rw [List.mem_singleton.mp hcp]
      exact Or.inl h1
    · rw [if_neg h1] at hcp
      rcases packLoop_chunk_cases 300 (sentSplit (jsTrim p))
          (sentSplit (jsTrim p)) [] c (fun x hx => hx)
          (Or.inl (by simp [slen])) hcp with h | ⟨s, hs, rfl⟩
      · exact Or.inl h
      · by_cases h2 : slen (jsTrim s) ≤ 300
        · exact Or.inl h2
        · refine Or.inr ⟨p, hp, by omega, s, hs, rfl, ?_⟩
          have := slen_jsTrim_le s
          omega

/-- Witness for C4: a one-sentence input yields itself as its only
chunk, within the budget. -/
theorem chunk_length_budget_witness :
    "Hello.".toList ∈ chunkText ("Hello.".toList) 300 ∧
    (slen ("Hello.".toList) ≤ 300 ∨
      ∃ p ∈ paraSplit (jsTrim ("Hello.".toList)), 300 < slen (jsTrim p) ∧
        ∃ s ∈ sentSplit (jsTrim p), "Hello.".toList = jsTrim s ∧ 300 < slen s) :=
  ⟨by decide, chunk_length_budget ("Hello.".toList) ("Hello.".toList) (by decide)⟩

/-- Counterexample for C3: the normalizer is not idempotent.  On the
ASCII input consisting of three apostrophes (`NFKD` is the identity on
ASCII, so `nfkd := id` is exact here), the single left-to-right pass of
the `'' → '` collapse leaves a doubled apostrophe, which a second
application collapses further. -/
theorem preprocess_not_idempotent_cx :
    preprocessText id [apos, apos, apos] = [apos, apos] ∧
    preprocessText id (preprocessText id [apos, apos, apos]) = [apos] ∧
    preprocessText id (preprocessText id [apos, apos, apos])
      ≠ preprocessText id [apos, apos, apos] :=
  ⟨by decide, by decide, by decide⟩

/-- A plain character is in particular plain-or-dot. -/
theorem isPlainOrDot_of_isPlainChar (c : Char) (h : isPlainChar c = true) :
    isPlainOrDot c = true := by
  simp [isPlainOrDot, h]

/-- A character whose code point is 32 is the space character. -/
theorem char_eq_space_of_toNat (c : Char) (h : c.toNat = 32) : c = ' ' := by
  rw [← Char.ofNat_toNat c, h]

/-- Plain-or-dot characters are not in the stripped emoji ranges. -/
theorem plainOrDot_not_emoji (c : Char) (h : isPlainOrDot c = true) :
    isEmojiChar c = false := by
  refine Bool.eq_false_iff.mpr (fun habs => ?_)
  simp only [isPlainOrDot, isPlainChar, Bool.or_eq_true, Bool.and_eq_true,
    decide_eq_true_eq] at h
  simp only [isEmojiChar, Bool.or_eq_true, Bool.and_eq_true,
    decide_eq_true_eq] at habs
  omega

/-- Plain-or-dot characters are not stripped combining marks. -/
theorem plainOrDot_not_combining (c : Char) (h : isPlainOrDot c = true) :
    isCombiningChar c = false := by
  refine Bool.eq_false_iff.mpr (fun habs => ?_)
  simp only [isPlainOrDot, isPlainChar, Bool.or_eq_true, Bool.and_eq_true,
    decide_eq_true_eq] at h
  simp only [isCombiningChar, Bool.or_eq_true, decide_eq_true_eq] at habs
  omega

/-- Plain-or-dot characters are not stripped symbols. -/
theorem plainOrDot_not_symbol (c : Char) (h : isPlainOrDot c = true) :
    isStrippedSymbol c = false := by
  refine Bool.eq_false_iff.mpr (fun habs => ?_)
  simp only [isPlainOrDot, isPlainChar, Bool.or_eq_true, Bool.and_eq_true,
    decide_eq_true_eq] at h
  simp only [isStrippedSymbol, Bool.or_eq_true, decide_eq_true_eq] at habs
  omega

/-- Plain characters never end in terminal punctuation. -/
theorem plain_not_terminal (c : Char) (h : isPlainChar c = true) :
    isTerminalPunct c = false := by
  refine Bool.eq_false_iff.mpr (fun habs => ?_)
  simp only [isPlainChar, Bool.or_eq_true, Bool.and_eq_true,
    decide_eq_true_eq] at h
  simp only [isTerminalPunct, Bool.or_eq_true, decide_eq_true_eq] at habs
  omega

/-- The only whitespace among plain-or-dot characters is the space. -/
theorem plainOrDot_ws_eq_space (c : Char) (h : isPlainOrDot c = true)
    (hw : isWsJS c = true) : c = ' ' := by
  refine char_eq_space_of_toNat c ?_
  simp only [isPlainOrDot, isPlainChar, Bool.or_eq_true, Bool.and_eq_true,
    decide_eq_true_eq] at h
  simp only [isWsJS, Bool.or_eq_true, Bool.and_eq_true,
    decide_eq_true_eq] at hw
  omega

/-- A plain character is not the period. -/
theorem plain_ne_dot (c : Char) (h : isPlainChar c = true) : c ≠ '.' := by
  intro heq
  subst heq
  exact absurd h (by decide)

/-- A successful anchored match uses only characters of the subject. -/
theorem mem_of_matchesAt : ∀ (pat l : List Char), matchesAt pat l = true →
    ∀ a ∈ pat, a ∈ l := by
  intro pat
  induction pat with
  | nil => intro l _ a ha; simp at ha
  | cons p ps ih =>
    intro l h a ha
    cases l with
    | nil => simp [matchesAt] at h
    | cons c cs =>
      simp only [matchesAt, Bool.and_eq_true, decide_eq_true_eq] at h
      rcases List.mem_cons.mp ha with rfl | ha
    
      · exact h.1 ▸ List.mem_cons_self _ _
      · exact List.mem_cons_of_mem _ (ih cs h.2 a ha)

/-- `replaceListF` on the empty subject is the empty subject. -/
theorem replaceListF_nil (pat rep : List Char) (fuel : ℕ) :
    replaceListF pat rep fuel [] = [] := by
  cases fuel <;> rfl

/-- A `replaceAll` whose pattern contains a character absent from the
subject is the identity. -/
theorem replaceListF_id_of_missing (pat rep : List Char) (a : Char)
    (ha : a ∈ pat) : ∀ (fuel : ℕ) (l : List Char), a ∉ l →
    replaceListF pat rep fuel l = l := by
  intro fuel
  induction fuel with
  | zero => intro l _; cases l <;> rfl
  | succ n ih =>
    intro l hl
    cases l with
    | nil => rfl
    | cons c cs =>
      have hm : matchesAt pat (c :: cs) = false := by
        refine Bool.eq_false_iff.mpr (fun habs => ?_)
        exact hl (mem_of_matchesAt pat (c :: cs) habs a ha)
      simp only [replaceListF, hm]
      rw [ih cs (fun hac => hl (List.mem_cons_of_mem _ hac))]
      simp

/-- `replaceAll` with a pattern containing a character absent from the
subject is the identity. -/
theorem replaceAll_id_of_missing (pat rep l : List Char) (a : Char)
    (ha : a ∈ pat) (hl : a ∉ l) : replaceAll pat rep l = l := by
  unfold replaceAll
  by_cases hp : pat = []
  · rw [if_pos hp]
  · rw [if_neg hp]
    exact replaceListF_id_of_missing pat rep a ha l.length l hl

/-- A character a table predicate rejects is absent from a subject the
predicate accepts throughout. -/
theorem notMem_of_class (pred : Char → Bool) (l : List Char) (a : Char)
    (hl : ∀ c ∈ l, pred c = true) (hpa : pred a = false) : a ∉ l := by
  intro hal
  rw [hl a hal] at hpa
  simp at hpa

/-- A replacement table each of whose patterns contains a character
outside a class is the identity on subjects inside the class. -/
theorem applyPairs_id_of_class (pred : Char → Bool)
    (prs : List (List Char × List Char)) (l : List Char)
    (hl : ∀ c ∈ l, pred c = true)
    (hp : ∀ pr ∈ prs, ∃ a ∈ pr.1, pred a = false) :
    applyPairs prs l = l := by
  induction prs with
  | nil => rfl
  | cons pr t ih =>
    obtain ⟨a, ha, hpa⟩ := hp pr (List.mem_cons_self _ _)
    have hstep : applyPairs (pr :: t) l
        = applyPairs t (replaceAll pr.1 pr.2 l) := rfl
    rw [hstep, replaceAll_id_of_missing pr.1 pr.2 l a ha
      (notMem_of_class pred l a hl hpa)]
    exact ih (fun pr2 h2 => hp pr2 (List.mem_cons_of_mem _ h2))

/-- The space-period fix is the identity on `w ++ ['.']` when `w`
contains no period and does not end in a space: the only period is at
the very end, preceded (if at all) by a non-space. -/
theorem replaceListF_spaceDot : ∀ (w : List Char) (fuel : ℕ),
    (∀ c ∈ w, c ≠ '.') → (∀ c, w.getLast? = some c → c ≠ ' ') →
    replaceListF [' ', '.'] ['.'] fuel (w ++ ['.']) = w ++ ['.'] := by
  intro w
  induction w with
  | nil =>
    intro fuel _ _
    cases fuel with
    | zero => rfl
    | succ n =>
      have hm : matchesAt [' ', '.'] ['.'] = false := by decide
      simp only [List.nil_append, replaceListF, hm]
      rw [replaceListF_nil]
      simp
  | cons b w2 ih =>
    intro fuel hdot hlast
    cases fuel with
    | zero => rfl
    | succ n =>
      have hm : matchesAt [' ', '.'] (b :: (w2 ++ ['.'])) = false := by
        cases w2 with
        | nil =>
          have hb : b ≠ ' ' := hlast b rfl
          have hb2 : ((' ' : Char) = b) = False := eq_false (fun h => hb h.symm)
          simp [matchesAt, hb2]
        | cons d w3 =>
          have hd : d ≠ '.' :=
            hdot d (List.mem_cons_of_mem _ (List.mem_cons_self _ _))
          have hd2 : (('.' : Char) = d) = False := eq_false (fun h => hd h.symm)
          simp [matchesAt, hd2]
      rw [List.cons_append]
      simp only [replaceListF, hm, Bool.false_eq_true, if_false]
      rw [ih n (fun c hc => hdot c (List.mem_cons_of_mem _ hc)) ?_]
      intro c hc
      cases w2 with
      | nil => simp at hc
      | cons d w3 =>
        refine hlast c ?_
        rw [List.getLast?_cons_cons]
        exact hc

/-- `collapseWsF` on the empty list is empty. -/
theorem collapseWsF_nil (fuel : ℕ) : collapseWsF fuel [] = [] := by
  cases fuel <;> rfl

/-- Out of fuel, `collapseWsF` is the identity. -/
theorem collapseWsF_zero (l : List Char) : collapseWsF 0 l = l := by
  cases l <;> rfl

/-- The head of a `dropWhile` fails the predicate. -/
theorem dropWhile_head_false (p : Char → Bool) : ∀ (l : List Char) (c : Char),
    (l.dropWhile p).head? = some c → p c = false := by
  intro l
  induction l with
  | nil => intro c hc; simp at hc
  | cons d t ih =>
    intro c hc
    by_cases hd : p d = true
    · rw [List.dropWhile_cons_of_pos hd] at hc
      exact ih c hc
    · rw [List.dropWhile_cons_of_neg hd] at hc
      obtain rfl : d = c := Option.some.inj hc
      exact Bool.eq_false_iff.mpr hd

/-- Characters of the whitespace collapse come from the input or are
the space. -/
theorem mem_collapseWsF : ∀ (fuel : ℕ) (l : List Char) (c : Char),
    c ∈ collapseWsF fuel l → c = ' ' ∨ c ∈ l := by
  intro fuel
  induction fuel with
  | zero => intro l c hc; rw [collapseWsF_zero] at hc; exact Or.inr hc
  | succ n ih =>
    intro l c hc
    cases l with
    | nil => simp [collapseWsF_nil] at hc
    | cons d t =>
      by_cases hd : isWsJS d = true
      · simp only [collapseWsF, hd, if_true] at hc
        rcases List.mem_cons.mp hc with rfl | hc
        · exact Or.inl rfl
        · rcases ih _ c hc with h | h
          · exact Or.inl h
          · exact Or.inr (List.mem_cons_of_mem _
              ((List.dropWhile_sublist isWsJS).subset h))
      · rw [Bool.not_eq_true] at hd
        simp only [collapseWsF, hd, Bool.false_eq_true, if_false] at hc
        rcases List.mem_cons.mp hc with rfl | hc
        · exact Or.inr (List.mem_cons_self _ _)
        · rcases ih _ c hc with h | h
          · exact Or.inl h
          · exact Or.inr (List.mem_cons_of_mem _ h)

/-- The head of a whitespace collapse fails `isWsJS` whenever the
input's head does. -/
theorem collapseWsF_head_not_ws : ∀ (fuel : ℕ) (l : List Char),
    (∀ c, l.head? = some c → isWsJS c = false) →
    ∀ c, (collapseWsF fuel l).head? = some c → isWsJS c = false := by
  intro fuel l h c hc
  cases fuel with
  | zero => rw [collapseWsF_zero] at hc; exact h c hc
  | succ n =>
    cases l with
    | nil => simp [collapseWsF_nil] at hc
    | cons d t =>
      have hd : isWsJS d = false := h d rfl
      simp only [collapseWsF, hd, Bool.false_eq_true, if_false] at hc
      obtain rfl : d = c := Option.some.inj hc
      exact hd

/-- The whitespace collapse produces whitespace-canonical text. -/
theorem collapseWsF_canonical : ∀ (fuel : ℕ) (l : List Char),
    l.length ≤ fuel → wsCanonical (collapseWsF fuel l) := by
  intro fuel
  induction fuel with
  | zero =>
    intro l hl
    have h0 : l = [] := List.length_eq_zero.mp (by omega)
    subst h0
    rw [collapseWsF_nil]
    exact ⟨by simp, by simp⟩
  | succ n ih =>
    intro l hl
    cases l with
    | nil => rw [collapseWsF_nil]; exact ⟨by simp, by simp⟩
    | cons d t =>
      by_cases hd : isWsJS d = true
      · simp only [collapseWsF, hd, if_true]
        have hrec : wsCanonical (collapseWsF n (t.dropWhile isWsJS)) := by
          refine ih _ (le_trans ?_ (by simpa using hl))
          have := (List.dropWhile_sublist isWsJS (l := t)).length_le
          omega
        refine ⟨?_, ?_⟩
        · intro c hc hw
          rcases List.mem_cons.mp hc with rfl | hc
          · rfl
          · exact hrec.1 c hc hw
        · rw [List.chain'_cons']
          refine ⟨?_, hrec.2⟩
          intro y hy hcontra
          have hhead : ∀ c, (t.dropWhile isWsJS).head? = some c →
              isWsJS c = false := fun c hc => dropWhile_head_false isWsJS t c hc
          have : isWsJS y = false :=
            collapseWsF_head_not_ws n (t.dropWhile isWsJS) hhead y hy
          rw [this] at hcontra
          simp at hcontra
      · rw [Bool.not_eq_true] at hd
        simp only [collapseWsF, hd, Bool.false_eq_true, if_false]
        have hrec : wsCanonical (collapseWsF n t) := ih t (by simpa using hl)
        refine ⟨?_, ?_⟩
        · intro c hc hw
          rcases List.mem_cons.mp hc with rfl | hc
          · rw [hd] at hw; simp at hw
          · exact hrec.1 c hc hw
        · rw [List.chain'_cons']
          refine ⟨?_, hrec.2⟩
          intro y _ hcontra
          rw [hd] at hcontra
          simp at hcontra

/-- The whitespace collapse is the identity on whitespace-canonical
text. -/
theorem collapseWsF_id_of_canonical : ∀ (fuel : ℕ) (l : List Char),
    wsCanonical l → collapseWsF fuel l = l := by
  intro fuel
  induction fuel with
  | zero => intro l _; exact collapseWsF_zero l
  | succ n ih =>
    intro l hcan
    cases l with
    | nil => rfl
    | cons d t =>
      by_cases hd : isWsJS d = true
      · have hds : d = ' ' := hcan.1 d (List.mem_cons_self _ _) hd
        have hdrop : t.dropWhile isWsJS = t := by
          cases t with
          | nil => rfl
          | cons e t2 =>
            have hrel := (List.chain'_cons'.mp hcan.2).1 e rfl
            have he : isWsJS e = false := by
              by_cases he2 : isWsJS e = true
              · exact absurd ⟨hd, he2⟩ hrel
              · exact Bool.eq_false_iff.mpr he2
            exact List.dropWhile_cons_of_neg (by rw [he]; simp)
        simp only [collapseWsF, hd, if_true, hdrop]
        rw [ih t ⟨fun c hc hw => hcan.1 c (List.mem_cons_of_mem _ hc) hw,
          (List.chain'_cons'.mp hcan.2).2⟩, hds]
      · rw [Bool.not_eq_true] at hd
        simp only [collapseWsF, hd, Bool.false_eq_true, if_false]
        rw [ih t ⟨fun c hc hw => hcan.1 c (List.mem_cons_of_mem _ hc) hw,
          (List.chain'_cons'.mp hcan.2).2⟩]

/-- Membership in a trim implies membership in the original. -/
theorem mem_jsTrim (c : Char) (l : List Char) (h : c ∈ jsTrim l) : c ∈ l := by
  unfold jsTrim at h
  rw [List.mem_reverse] at h
  have h1 := (List.dropWhile_sublist isWsJS).subset h
  rw [List.mem_reverse] at h1
  exact (List.dropWhile_sublist isWsJS).subset h1

/-- An adjacency invariant survives `dropWhile`. -/
theorem chain'_dropWhile {R : Char → Char → Prop} (p : Char → Bool) :
    ∀ (l : List Char), List.Chain' R l → List.Chain' R (l.dropWhile p) := by
  intro l
  induction l with
  | nil => intro h; simp
  | cons d t ih =>
    intro h
    by_cases hd : p d = true
    · rw [List.dropWhile_cons_of_pos hd]
      exact ih (List.chain'_cons'.mp h).2
    · rw [List.dropWhile_cons_of_neg hd]
      exact h

/-- Whitespace canonicity survives trimming. -/
theorem wsCanonical_jsTrim (l : List Char) (h : wsCanonical l) :
    wsCanonical (jsTrim l) := by
  refine ⟨fun c hc hw => h.1 c (mem_jsTrim c l hc) hw, ?_⟩
  unfold jsTrim
  have hsymm : ∀ (a b : Char), ¬(isWsJS a = true ∧ isWsJS b = true) →
      ¬(isWsJS b = true ∧ isWsJS a = true) :=
    fun a b hab hc => hab ⟨hc.2, hc.1⟩
  have c1 := chain'_dropWhile isWsJS l h.2
  have c3 := List.chain'_reverse.mpr (c1.imp hsymm)
  have c4 := chain'_dropWhile isWsJS _ c3
  exact List.chain'_reverse.mpr (c4.imp hsymm)

/-- Appending a period preserves whitespace canonicity. -/
theorem wsCanonical_append_dot (w : List Char) (h : wsCanonical w) :
    wsCanonical (w ++ ['.']) := by
  refine ⟨?_, ?_⟩
  · intro c hc hw
    rcases List.mem_append.mp hc with hcw | hcd
    · exact h.1 c hcw hw
    · rw [List.mem_singleton.mp hcd] at hw
      exact absurd hw (by decide)
  · rw [List.chain'_append]
    refine ⟨h.2, by simp, ?_⟩
    intro x _ y hy
    obtain rfl : ('.' : Char) = y := Option.some.inj hy
    intro hcontra
    exact absurd hcontra.2 (by decide)

/-- The trim of any list does not begin with whitespace. -/
theorem jsTrim_head_not_ws (l : List Char) :
    ∀ c, (jsTrim l).head? = some c → isWsJS c = false := by
  intro c hc
  unfold jsTrim at hc
  rw [List.head?_reverse] at hc
  obtain ⟨t, ht⟩ := List.dropWhile_suffix
    (l := (l.dropWhile isWsJS).reverse) isWsJS
  have hLast : ((l.dropWhile isWsJS).reverse).getLast? = some c := by
    rw [← ht, List.getLast?_append, hc]
    rfl
  rw [List.getLast?_reverse] at hLast
  exact dropWhile_head_false isWsJS _ c hLast

/-- The trim of any list does not end with whitespace. -/
theorem jsTrim_getLast_not_ws (l : List Char) :
    ∀ c, (jsTrim l).getLast? = some c → isWsJS c = false := by
  intro c hc
  unfold jsTrim at hc
  rw [List.getLast?_reverse] at hc
  exact dropWhile_head_false isWsJS _ c hc

/-- Trimming is the identity when neither end is whitespace. -/
theorem jsTrim_id (l : List Char)
    (h1 : ∀ c, l.head? = some c → isWsJS c = false)
    (h2 : ∀ c, l.getLast? = some c → isWsJS c = false) :
    jsTrim l = l := by
  unfold jsTrim
  have d1 : l.dropWhile isWsJS = l := by
    cases l with
    | nil => rfl
    | cons c cs =>
      refine List.dropWhile_cons_of_neg ?_
      rw [h1 c rfl]
      simp
  rw [d1]
  have d2 : l.reverse.dropWhile isWsJS = l.reverse := by
    cases hr : l.reverse with
    | nil => rfl
    | cons c cs =>
      have hlast : l.getLast? = some c := by
        rw [← List.head?_reverse, hr]
        rfl
      refine List.dropWhile_cons_of_neg ?_
      rw [h2 c hlast]
      simp
  rw [d2, List.reverse_reverse]

/-- On plain input (ASCII letters, digits, spaces) the normalizer only
collapses whitespace, trims, and appends a terminal period: every
rewriting stage is the identity. -/
theorem preprocess_plain_eq (nfkd : List Char → List Char)
    (hn : ∀ l, (∀ c ∈ l, isPlainOrDot c = true) → nfkd l = l)
    (t : List Char) (ht : ∀ c ∈ t, isPlainChar c = true) :
    preprocessText nfkd t = jsTrim (collapseWs t) ++ ['.'] := by
  have htd : ∀ c ∈ t, isPlainOrDot c = true :=
    fun c hc => isPlainOrDot_of_isPlainChar c (ht c hc)
  have f1 : t.filter (fun c => !isEmojiChar c) = t :=
    List.filter_eq_self.mpr (fun c hc => by
      rw [plainOrDot_not_emoji c (htd c hc)]; rfl)
  have f2 : applyPairs charReplacements t = t :=
    applyPairs_id_of_class isPlainOrDot charReplacements t htd (by decide)
  have f3 : t.filter (fun c => !isCombiningChar c) = t :=
    List.filter_eq_self.mpr (fun c hc => by
      rw [plainOrDot_not_combining c (htd c hc)]; rfl)
  have f4 : t.filter (fun c => !isStrippedSymbol c) = t :=
    List.filter_eq_self.mpr (fun c hc => by
      rw [plainOrDot_not_symbol c (htd c hc)]; rfl)
  have f5 : applyPairs exprReplacements t = t :=
    applyPairs_id_of_class isPlainChar exprReplacements t ht (by decide)
  have f6 : applyPairs spacePunctPairs t = t :=
    applyPairs_id_of_class isPlainChar spacePunctPairs t ht (by decide)
  have f7 : applyPairs quotePairs t = t :=
    applyPairs_id_of_class isPlainChar quotePairs t ht (by decide)
  have hterm : endsWithTerminalPunct (jsTrim (collapseWs t)) = false := by
    unfold endsWithTerminalPunct
    cases hg : (jsTrim (collapseWs t)).getLast? with
    | none => rfl
    | some c =>
      have hc : c ∈ jsTrim (collapseWs t) := List.mem_of_getLast?_eq_some hg
      have hc2 := mem_jsTrim c _ hc
      rcases mem_collapseWsF _ _ c hc2 with rfl | hct
      · exact plain_not_terminal ' ' (by decide)
      · exact plain_not_terminal c (ht c hct)
  simp only [preprocessText]
  rw [hn t htd, f1, f2, f3, f4, f5, f6, f7,
    if_neg (by rw [hterm]; exact Bool.false_ne_true)]

/-- The first-pass output `w ++ ['.']` — `w` plain, whitespace-canonical
and not touching whitespace at either end — is a fixed point of the
normalizer. -/
theorem preprocess_plain_fixed (nfkd : List Char → List Char)
    (hn : ∀ l, (∀ c ∈ l, isPlainOrDot c = true) → nfkd l = l)
    (w : List Char)
    (hw : ∀ c ∈ w, isPlainChar c = true)
    (hcanon : wsCanonical w)
    (hhead : ∀ c, w.head? = some c → isWsJS c = false)
    (hlast : ∀ c, w.getLast? = some c → isWsJS c = false) :
    preprocessText nfkd (w ++ ['.']) = w ++ ['.'] := by
  have hu : ∀ c ∈ w ++ ['.'], isPlainOrDot c = true := by
    intro c hc
    rcases List.mem_append.mp hc with hcw | hcd
    · exact isPlainOrDot_of_isPlainChar c (hw c hcw)
    · rw [List.mem_singleton.mp hcd]
      decide
  have f1 : (w ++ ['.']).filter (fun c => !isEmojiChar c) = w ++ ['.'] :=
    List.filter_eq_self.mpr (fun c hc => by
      rw [plainOrDot_not_emoji c (hu c hc)]; rfl)
  have f2 : applyPairs charReplacements (w ++ ['.']) = w ++ ['.'] :=
    applyPairs_id_of_class isPlainOrDot charReplacements _ hu (by decide)
  have f3 : (w ++ ['.']).filter (fun c => !isCombiningChar c) = w ++ ['.'] :=
    List.filter_eq_self.mpr (fun c hc => by
      rw [plainOrDot_not_combining c (hu c hc)]; rfl)
  have f4 : (w ++ ['.']).filter (fun c => !isStrippedSymbol c) = w ++ ['.'] :=
    List.filter_eq_self.mpr (fun c hc => by
      rw [plainOrDot_not_symbol c (hu c hc)]; rfl)
  have f5 : applyPairs exprReplacements (w ++ ['.']) = w ++ ['.'] :=
    applyPairs_id_of_class isPlainOrDot exprReplacements _ hu (by decide)
  have e2 : replaceAll [' ', '.'] ['.'] (w ++ ['.']) = w ++ ['.'] := by
    unfold replaceAll
    rw [if_neg (by simp)]
    refine replaceListF_spaceDot w _ (fun c hc => plain_ne_dot c (hw c hc)) ?_
    intro c hg heq
    subst heq
    exact absurd (hlast ' ' hg) (by decide)
  have f6 : applyPairs spacePunctPairs (w ++ ['.']) = w ++ ['.'] := by
    have e1 : replaceAll [' ', ','] [','] (w ++ ['.']) = w ++ ['.'] :=
      replaceAll_id_of_missing _ _ _ ','
        (by decide) (notMem_of_class isPlainOrDot _ ',' hu (by decide))
    have e3 : replaceAll [' ', '!'] ['!'] (w ++ ['.']) = w ++ ['.'] :=
      replaceAll_id_of_missing _ _ _ '!'
        (by decide) (notMem_of_class isPlainOrDot _ '!' hu (by decide))
    have e4 : replaceAll [' ', '?'] ['?'] (w ++ ['.']) = w ++ ['.'] :=
      replaceAll_id_of_missing _ _ _ '?'
        (by decide) (notMem_of_class isPlainOrDot _ '?' hu (by decide))
    have e5 : replaceAll [' ', ';'] [';'] (w ++ ['.']) = w ++ ['.'] :=
      replaceAll_id_of_missing _ _ _ ';'
        (by decide) (notMem_of_class isPlainOrDot _ ';' hu (by decide))
    have e6 : replaceAll [' ', ':'] [':'] (w ++ ['.']) = w ++ ['.'] :=
      replaceAll_id_of_missing _ _ _ ':'
        (by decide) (notMem_of_class isPlainOrDot _ ':' hu (by decide))
    have e7 : replaceAll [' ', apos] [apos] (w ++ ['.']) = w ++ ['.'] :=
      replaceAll_id_of_missing _ _ _ apos
        (by decide) (notMem_of_class isPlainOrDot _ apos hu (by decide))
    simp only [applyPairs, spacePunctPairs, List.foldl_cons, List.foldl_nil]
    rw [e1, e2, e3, e4, e5, e6, e7]
  have f7 : applyPairs quotePairs (w ++ ['.']) = w ++ ['.'] :=
    applyPairs_id_of_class isPlainOrDot quotePairs _ hu (by decide)
  have hcanu : wsCanonical (w ++ ['.']) := wsCanonical_append_dot w hcanon
  have hcol : collapseWs (w ++ ['.']) = w ++ ['.'] := by
    unfold collapseWs
    exact collapseWsF_id_of_canonical _ _ hcanu
  have hheadu : ∀ c, (w ++ ['.']).head? = some c → isWsJS c = false := by
    intro c hc
    cases w with
    | nil =>
      obtain rfl : ('.' : Char) = c := Option.some.inj hc
      decide
    | cons b w2 =>
      obtain rfl : b = c := Option.some.inj hc
      exact hhead b rfl
  have hlastu : ∀ c, (w ++ ['.']).getLast? = some c → isWsJS c = false := by
    intro c hc
    rw [List.getLast?_concat] at hc
    obtain rfl : ('.' : Char) = c := Option.some.inj hc
    decide
  have htrim : jsTrim (w ++ ['.']) = w ++ ['.'] := jsTrim_id _ hheadu hlastu
  have hterm : endsWithTerminalPunct (w ++ ['.']) = true := by
    unfold endsWithTerminalPunct
    rw [List.getLast?_concat]
    decide
  simp only [preprocessText]
  rw [hn _ hu, f1, f2, f3, f4, f5, f6, f7, hcol, htrim, if_pos hterm]

/-- C3 (amended): the normalizer is idempotent on plain text — for
input over ASCII letters, digits and spaces (where `NFKD` is the
identity), `preprocessText (preprocessText t) = preprocessText t`.
(It is not idempotent in general: see the doubled-quote
counterexample.) -/
theorem preprocess_idempotent_plain (nfkd : List Char → List Char)
    (hn : ∀ l, (∀ c ∈ l, isPlainOrDot c = true) → nfkd l = l)
    (t : List Char) (ht : ∀ c ∈ t, isPlainChar c = true) :
    preprocessText nfkd (preprocessText nfkd t) = preprocessText nfkd t := by
  rw [preprocess_plain_eq nfkd hn t ht]
  have hwc : ∀ c ∈ jsTrim (collapseWs t), isPlainChar c = true := by
    intro c hc
    rcases mem_collapseWsF _ _ c (mem_jsTrim c _ hc) with rfl | hct
    · decide
    · exact ht c hct
  have hcanon : wsCanonical (jsTrim (collapseWs t)) := by
    refine wsCanonical_jsTrim _ ?_
    unfold collapseWs
    exact collapseWsF_canonical _ _ le_rfl
  exact preprocess_plain_fixed nfkd hn (jsTrim (collapseWs t)) hwc hcanon
    (jsTrim_head_not_ws _) (jsTrim_getLast_not_ws _)

/-- Witness for C3's amended statement: a plain two-word input. -/
theorem preprocess_idempotent_plain_witness :
    (∀ c ∈ ("Hello world".toList), isPlainChar c = true) ∧
    preprocessText id (preprocessText id ("Hello world".toList))
      = preprocessText id ("Hello world".toList) :=
  ⟨by decide,
   preprocess_idempotent_plain id (fun l _ => rfl) ("Hello world".toList)
     (by decide)⟩

end Riddi
